import Mathlib

/-!
Verification of the bundling engine of the Gmail Bundles userscript
(src/gmail-bundles-userscript.js).

The script manipulates a live DOM.  The shallow embedding models the
DOM boundary as plain data:

* a message row (`.zA` element) is an `Email` record carrying exactly the
  fields the script reads: the `innerText` of its `.av` label elements
  (`labels`), the presence of the unread class `zE` (`unread`), the
  `innerText` of the `.bA4` sender wrapper (`sender`), the `innerText` of
  the sent-date span (`date`), and the two marker classes the script
  itself writes (`_js-is-bundled` = `isBundled`, `_js-hidden-email`
  together with `display:none` = `hidden`);
* the visible email table is a `Dom`: the document-ordered list of its
  `.zA` nodes, which are either real email rows or synthetic bundle rows
  (the synthetic rows also carry the `zA` class, see the template
  construction at line 158 of the source);
* JS objects used as string-keyed maps (`state.bundles`,
  `state.bundlesVisibility`, `state.bundlesUnread`) are association
  lists kept in key-insertion order, which is exactly the order
  `Object.keys` enumerates.

Emails are identified by `Email.id`: the script stores DOM element
references inside `state.bundles`; storing ids and resolving them against
the current `Dom` models that aliasing.
-/

/-- A real message row, with exactly the data the script reads or writes
on it (source lines 34-44, 58-60). -/
structure Email where
  id : Nat
  labels : List String
  unread : Bool
  sender : String
  date : String
  isBundled : Bool
  hidden : Bool
deriving DecidableEq

/-- A node of the visible email table: a real email row or a synthetic
bundle row (identified by its `data-bundlename` attribute).  Both carry
the `zA` email class, so both are returned by the script's
`querySelectorAll('.zA')` calls. -/
inductive Node where
  | emailN (e : Email)
  | bundleN (name : String)
deriving DecidableEq

/-- The visible email table: its `.zA` rows in document order
(top-most = most recent first). -/
abbrev Dom := List Node

/-- Lookup in a JS object modelled as an insertion-ordered association
list: `m[k]`, `none` = `undefined`. -/
def lookupB {α : Type} : List (String × α) → String → Option α
  | [], _ => none
  | (k, v) :: rest, key => if k = key then some v else lookupB rest key

/-- The keys of a JS object in `Object.keys` (insertion) order. -/
def keysOf {α : Type} (m : List (String × α)) : List String :=
  m.map (fun p => p.1)

/-- The effect of `bundles[label] = bundles[label] || []; bundles[label].push(x)`
(source lines 288-289): append `x` to the entry of `key`, creating the entry
(at the end, preserving JS key-insertion order) if absent. -/
def pushMember (m : List (String × List Nat)) (key : String) (x : Nat) :
    List (String × List Nat) :=
  match m with
  | [] => [(key, [x])]
  | (k, v) :: rest =>
      if k = key then (k, v ++ [x]) :: rest else (k, v) :: pushMember rest key x

/-- The effect of `bundlesUnread[label] = true` (source line 293): the JS
object is used only for truthiness of its values, so it is modelled as the
insertion-ordered list of keys set to `true`. -/
def insertSet (s : List String) (key : String) : List String :=
  if key ∈ s then s else s ++ [key]

/-- The per-cycle output of the Grouping Engine: the three structures
rebuilt from scratch by `setBundleStateToEmails` (source lines 272-274). -/
structure BundleGroups where
  bundles : List (String × List Nat)
  bundlesUnread : List String
  bundlesOrder : List String
deriving DecidableEq

/-- Processing of one label chip of one email inside the
`$emailLabels.forEach` loop of `setBundleStateToEmails` (source lines
283-295): record first-seen label order, append the email to the label's
member list, and mark the label unread if the email is unread. -/
def processLabel (i : Nat) (unread : Bool) (g : BundleGroups) (label : String) :
    BundleGroups :=
  let ord :=
    if (lookupB g.bundles label).isNone then g.bundlesOrder ++ [label]
    else g.bundlesOrder
  let bs := pushMember g.bundles label i
  let ur := if unread then insertSet g.bundlesUnread label else g.bundlesUnread
  ⟨bs, ur, ord⟩

/-- Processing of one email inside the `$emails.forEach` loop of
`setBundleStateToEmails` (source lines 275-296): an email with no labels
is skipped untouched; otherwise the `_js-is-bundled` class is added and
each of its labels is processed in order.  The accumulator carries the
groups built so far and the (possibly class-mutated) emails already
visited, in order. -/
def processEmail (acc : BundleGroups × List Email) (e : Email) :
    BundleGroups × List Email :=
  if e.labels = [] then (acc.1, acc.2 ++ [e])
  else
    let e2 : Email := { e with isBundled := true }
    (e.labels.foldl (processLabel e.id e.unread) acc.1, acc.2 ++ [e2])

/-- `setBundleStateToEmails` (source lines 270-301): rebuild the bundle
membership map, the unread flags and the label ordering from the current
snapshot of rows.  Returns the freshly computed groups together with the
snapshot rows after the class mutations the loop performs on them. -/
def setBundleStateToEmails (emails : List Email) : BundleGroups × List Email :=
  emails.foldl processEmail (⟨[], [], []⟩, [])

/-- Specification-side description of first-seen ordering: the labels in
order of first occurrence when scanning rows top to bottom and each row's
chips left to right. -/
def firstSeen (ls : List String) : List String :=
  ls.foldl (fun acc l => if l ∈ acc then acc else acc ++ [l]) []

/-- The member list of a label in a `BundleGroups` (empty if absent). -/
def membersOf (g : BundleGroups) (label : String) : List Nat :=
  (lookupB g.bundles label).getD []

-- ### Association list lemmas

theorem lookupB_pushMember (m : List (String × List Nat))
    (key : String) (x : Nat) (q : String) :
    lookupB (pushMember m key x) q =
      if q = key then some (((lookupB m key).getD []) ++ [x]) else lookupB m q := by
  induction m with
  | nil =>
      by_cases h : q = key
      · subst h
        simp [pushMember, lookupB]
      · have h2 : ¬ key = q := fun hh => h hh.symm
        simp [pushMember, lookupB, h, h2]
  | cons p rest ih =>
      obtain ⟨k, v⟩ := p
      by_cases hk : k = key
      · subst hk
        by_cases hq : q = k
        · subst hq
          simp [pushMember, lookupB]
        · have h2 : ¬ k = q := fun hh => hq hh.symm
          simp [pushMember, lookupB, hq, h2]
      · by_cases hq : k = q
        · subst hq
          simp [pushMember, lookupB, hk]
        · simp [pushMember, lookupB, hk, hq, ih]

theorem keysOf_pushMember (m : List (String × List Nat)) (key : String) (x : Nat) :
    keysOf (pushMember m key x) =
      if key ∈ keysOf m then keysOf m else keysOf m ++ [key] := by
  induction m with
  | nil => simp [pushMember, keysOf]
  | cons p rest ih =>
      obtain ⟨k, v⟩ := p
      by_cases hk : k = key
      · subst hk
        simp [pushMember, keysOf]
      · have hne : ¬ key = k := fun h => hk h.symm
        simp [pushMember, keysOf, hk, hne] at ih ⊢
        rw [ih]
        by_cases hmem : key ∈ rest.map (fun p => p.1) <;> simp [hmem, hne]

theorem lookupB_isNone_iff {α : Type} (m : List (String × α)) (key : String) :
    (lookupB m key).isNone = true ↔ key ∉ keysOf m := by
  induction m with
  | nil => simp [lookupB, keysOf]
  | cons p rest ih =>
      obtain ⟨k, v⟩ := p
      by_cases hk : k = key
      · subst hk
        simp [lookupB, keysOf]
      · have hne : ¬ key = k := fun h => hk h.symm
        simp [lookupB, keysOf, hk, hne, ih]

-- ### Grouping engine lemmas (claim C1)

/-- All label chips of a snapshot, rows top to bottom, chips left to
right.  Rows without labels contribute nothing. -/
def allLabels (es : List Email) : List String :=
  (es.map (fun e => e.labels)).flatten

/-- Combining an existing member-list entry with the members contributed
by the remaining rows. -/
def combineOpt (o : Option (List Nat)) (xs : List Nat) : Option (List Nat) :=
  if xs = [] then o else some (o.getD [] ++ xs)

theorem labelFold_lookup (i : Nat) (u : Bool) (q : String) (ls : List String)
    (hnd : ls.Nodup) :
    ∀ g : BundleGroups,
      lookupB (ls.foldl (processLabel i u) g).bundles q =
        if q ∈ ls then some (((lookupB g.bundles q).getD []) ++ [i])
        else lookupB g.bundles q := by
  induction ls with
  | nil => intro g; simp
  | cons l rest ih =>
      intro g
      have hnd' : rest.Nodup := hnd.of_cons
      have hl : l ∉ rest := (List.nodup_cons.mp hnd).1
      by_cases hq : q = l
      · subst hq
        simp only [List.foldl_cons, ih hnd', if_neg hl]
        simp [processLabel, lookupB_pushMember, List.mem_cons]
      · simp only [List.foldl_cons, ih hnd']
        have heq : lookupB (processLabel i u g l).bundles q = lookupB g.bundles q := by
          simp [processLabel, lookupB_pushMember, hq]
        simp [heq, List.mem_cons, hq]

theorem labelFold_keys (i : Nat) (u : Bool) (ls : List String) :
    ∀ g : BundleGroups,
      keysOf (ls.foldl (processLabel i u) g).bundles =
        ls.foldl (fun ks l => if l ∈ ks then ks else ks ++ [l]) (keysOf g.bundles) := by
  induction ls with
  | nil => intro g; simp
  | cons l rest ih =>
      intro g
      simp only [List.foldl_cons, ih]
      have hk : keysOf (processLabel i u g l).bundles =
          if l ∈ keysOf g.bundles then keysOf g.bundles else keysOf g.bundles ++ [l] := by
        simp [processLabel, keysOf_pushMember]
      rw [hk]

theorem labelFold_order (i : Nat) (u : Bool) (ls : List String) :
    ∀ g : BundleGroups, g.bundlesOrder = keysOf g.bundles →
      (ls.foldl (processLabel i u) g).bundlesOrder =
        keysOf (ls.foldl (processLabel i u) g).bundles := by
  induction ls with
  | nil => intro g h; simpa using h
  | cons l rest ih =>
      intro g h
      simp only [List.foldl_cons]
      apply ih
      by_cases hmem : l ∈ keysOf g.bundles
      · have hsome : ¬ (lookupB g.bundles l).isNone = true := by
          rw [lookupB_isNone_iff]; simp [hmem]
        simp only [processLabel, keysOf_pushMember, if_pos hmem]
        simp only [Bool.not_eq_true, Option.isNone_eq_false_iff] at hsome
        simp [Option.isSome_iff_ne_none] at hsome
        simp [hsome, h]
      · have hnone : (lookupB g.bundles l).isNone = true := by
          rw [lookupB_isNone_iff]; exact hmem
        simp only [processLabel, keysOf_pushMember, if_neg hmem]
        simp [hnone, h]

theorem emailFold_lookup (q : String) (es : List Email)
    (hnd : ∀ e ∈ es, e.labels.Nodup) :
    ∀ acc : BundleGroups × List Email,
      lookupB (es.foldl processEmail acc).1.bundles q =
        combineOpt (lookupB acc.1.bundles q)
          ((es.filter (fun e => q ∈ e.labels)).map (fun e => e.id)) := by
  induction es with
  | nil => intro acc; simp [combineOpt]
  | cons e rest ih =>
      intro acc
      have hndr : ∀ x ∈ rest, x.labels.Nodup := fun x hx => hnd x (List.mem_cons_of_mem e hx)
      have hnde : e.labels.Nodup := hnd e (List.mem_cons_self e rest)
      by_cases hempty : e.labels = []
      · have hq : ¬ q ∈ e.labels := by simp [hempty]
        simp only [List.foldl_cons, processEmail, if_pos hempty]
        rw [ih hndr]
        simp [List.filter_cons, hq]
      · simp only [List.foldl_cons, processEmail, if_neg hempty]
        rw [ih hndr]
        by_cases hq : q ∈ e.labels
        · rw [labelFold_lookup e.id e.unread q e.labels hnde, if_pos hq]
          simp only [List.filter_cons, hq, decide_True, List.map_cons]
          by_cases hrest : (rest.filter (fun x => q ∈ x.labels)).map (fun x => x.id) = []
          · simp [combineOpt, hrest]
          · simp [combineOpt, hrest]
        · rw [labelFold_lookup e.id e.unread q e.labels hnde, if_neg hq]
          simp [List.filter_cons, hq]

theorem emailFold_keys (es : List Email) :
    ∀ acc : BundleGroups × List Email,
      keysOf (es.foldl processEmail acc).1.bundles =
        (allLabels es).foldl (fun ks l => if l ∈ ks then ks else ks ++ [l])
          (keysOf acc.1.bundles) := by
  induction es with
  | nil => intro acc; simp [allLabels]
  | cons e rest ih =>
      intro acc
      have hall : allLabels (e :: rest) = e.labels ++ allLabels rest := by
        simp [allLabels]
      by_cases hempty : e.labels = []
      · simp only [List.foldl_cons, processEmail, if_pos hempty]
        rw [ih]
        simp [hall, hempty]
      · simp only [List.foldl_cons, processEmail, if_neg hempty]
        rw [ih]
        simp only [hall, List.foldl_append]
        rw [labelFold_keys]

theorem emailFold_order (es : List Email) :
    ∀ acc : BundleGroups × List Email,
      acc.1.bundlesOrder = keysOf acc.1.bundles →
      (es.foldl processEmail acc).1.bundlesOrder =
        keysOf (es.foldl processEmail acc).1.bundles := by
  induction es with
  | nil => intro acc h; simpa using h
  | cons e rest ih =>
      intro acc h
      by_cases hempty : e.labels = []
      · simp only [List.foldl_cons, processEmail, if_pos hempty]
        exact ih _ h
      · simp only [List.foldl_cons, processEmail, if_neg hempty]
        exact ih _ (labelFold_order e.id e.unread e.labels acc.1 h)

/-- Claim C1.  After `setBundleStateToEmails` runs on a snapshot of rows
(whose label chips are duplicate-free within a row), a label's member list
is exactly the ids of the snapshot rows carrying that label, in snapshot
(recency) order; with distinct row ids this gives the membership iff —
a row is in a bundle's member list iff it carries that bundle's label,
and a row labelled both A and B is in both lists; and the computed label
ordering is the first-seen order of labels over the snapshot. -/
theorem spec_C1 (emails : List Email)
    (hlab : ∀ e ∈ emails, e.labels.Nodup)
    (hids : (emails.map (fun e => e.id)).Nodup) :
    (∀ q, lookupB (setBundleStateToEmails emails).1.bundles q =
        (if (emails.filter (fun e => q ∈ e.labels)) = [] then none
         else some ((emails.filter (fun e => q ∈ e.labels)).map (fun e => e.id))))
    ∧ (setBundleStateToEmails emails).1.bundlesOrder = firstSeen (allLabels emails)
    ∧ (∀ q e, e ∈ emails →
        (e.id ∈ membersOf (setBundleStateToEmails emails).1 q ↔ q ∈ e.labels)) := by
  have hmain : ∀ q, lookupB (setBundleStateToEmails emails).1.bundles q =
      (if (emails.filter (fun e => q ∈ e.labels)) = [] then none
       else some ((emails.filter (fun e => q ∈ e.labels)).map (fun e => e.id))) := by
    intro q
    rw [setBundleStateToEmails, emailFold_lookup q emails hlab]
    simp only [lookupB, combineOpt]
    by_cases hnil : (emails.filter (fun e => q ∈ e.labels)) = []
    · simp [hnil]
    · have : ¬ (emails.filter (fun e => q ∈ e.labels)).map (fun e => e.id) = [] := by
        simp [List.map_eq_nil_iff, hnil]
      simp [hnil, this]
  refine ⟨hmain, ?_, ?_⟩
  · rw [setBundleStateToEmails, emailFold_order emails _ (by simp [keysOf]),
      emailFold_keys]
    simp [keysOf, firstSeen]
  · intro q e he
    rw [membersOf, hmain q]
    constructor
    · intro hin
      by_cases hnil : (emails.filter (fun x => q ∈ x.labels)) = []
      · simp [hnil] at hin
      · simp only [if_neg hnil, Option.getD_some] at hin
        obtain ⟨e2, he2, hid⟩ := List.mem_map.mp hin
        have he2mem : e2 ∈ emails := (List.mem_filter.mp he2).1
        have he2lab : q ∈ e2.labels := by
          have := (List.mem_filter.mp he2).2
          simpa using this
        have : e2 = e := List.inj_on_of_nodup_map hids he2mem he hid
        rwa [← this]
    · intro hq
      have hemem : e ∈ emails.filter (fun x => q ∈ x.labels) :=
        List.mem_filter.mpr ⟨he, by simpa using hq⟩
      have hnil : ¬ (emails.filter (fun x => q ∈ x.labels)) = [] :=
        List.ne_nil_of_mem hemem
      simp only [if_neg hnil, Option.getD_some]
      exact List.mem_map.mpr ⟨e, hemem, rfl⟩

/-- Witness for C1 at a concrete snapshot: row 1 labelled A and B, row 2
labelled A; bundle A lists rows 1 and 2 in order, bundle B lists row 1,
and the label order is A then B. -/
theorem wit_C1 :
    membersOf (setBundleStateToEmails
        [ ⟨1, [ "A", "B" ], true, "s1", "d1", false, false⟩,
          ⟨2, [ "A" ], false, "s2", "d2", false, false⟩ ]).1 "A" = [1, 2] ∧
    (1 ∈ membersOf (setBundleStateToEmails
        [ ⟨1, [ "A", "B" ], true, "s1", "d1", false, false⟩,
          ⟨2, [ "A" ], false, "s2", "d2", false, false⟩ ]).1 "B" ↔
      "B" ∈ [ "A", "B" ]) := by
  constructor
  · decide
  · exact (spec_C1 _ (by decide) (by decide)).2.2 "B"
      ⟨1, [ "A", "B" ], true, "s1", "d1", false, false⟩ (by decide)

-- ### Toggle protocol: visibility map model (claim C2)

/-- `state.bundlesVisibility` (source line 69): a JS object keyed by
bundle name holding booleans, modelled as an insertion-ordered
association list. -/
abbrev VisMap := List (String × Bool)

/-- JS assignment `m[k] = b`: update the existing entry in place, or
append a new key in insertion order. -/
def visSet (m : VisMap) (k : String) (b : Bool) : VisMap :=
  match m with
  | [] => [(k, b)]
  | (k2, v) :: rest => if k2 = k then (k2, b) :: rest else (k2, v) :: visSet rest k b

/-- JS `delete m[k]` (source line 447). -/
def visDelete (m : VisMap) (k : String) : VisMap :=
  m.filter (fun p => ¬ p.1 = k)

/-- `getVisibleBundleName` (source lines 411-415):
`Object.keys(state.bundlesVisibility).find((key) => state.bundlesVisibility[key])`,
the first key (in insertion order) whose value is truthy. -/
def getVisibleBundleName (m : VisMap) : Option String :=
  (m.find? (fun p => p.2)).map (fun p => p.1)

/-- JS truthiness of the result of `getVisibleBundleName` when used as a
condition (source lines 180, 349): `undefined` and the empty string are
falsy, any other key string is truthy. -/
def jsTruthyName : Option String → Bool
  | none => false
  | some s => !(s == "")

/-- JS negation `!m[k]` used by the toggle at source line 185:
`!undefined = true`, otherwise boolean negation. -/
def jsToggle : Option Bool → Bool
  | none => true
  | some b => !b

/-- The effect of `onBundleClick` (source lines 169-193) on
`state.bundlesVisibility`: if the clicked bundle's flag is strictly
`=== false` and some bundle is visible (with a truthy name), that
bundle's flag is first set to `false`; then the clicked bundle's flag is
toggled.  (The DOM work of the handler does not touch the visibility
map, so the map evolution is fully described here.) -/
def clickVis (m : VisMap) (c : String) : VisMap :=
  let visible := getVisibleBundleName m
  let m1 :=
    if lookupB m c = some false ∧ jsTruthyName visible = true then
      visSet m (visible.getD "") false
    else m
  visSet m1 c (jsToggle (lookupB m1 c))

/-- The number of labels whose open flag is true. -/
def openCount (m : VisMap) : Nat :=
  (m.filter (fun p => p.2)).length

theorem lookupB_visSet (m : VisMap) (k : String) (b : Bool) (q : String) :
    lookupB (visSet m k b) q = if q = k then some b else lookupB m q := by
  induction m with
  | nil =>
      by_cases h : q = k
      · subst h; simp [visSet, lookupB]
      · have h2 : ¬ k = q := fun hh => h hh.symm
        simp [visSet, lookupB, h, h2]
  | cons p rest ih =>
      obtain ⟨k2, v⟩ := p
      by_cases hk : k2 = k
      · subst hk
        by_cases hq : q = k2
        · subst hq; simp [visSet, lookupB]
        · have h2 : ¬ k2 = q := fun hh => hq hh.symm
          simp [visSet, lookupB, hq, h2]
      · by_cases hq : k2 = q
        · subst hq
          simp [visSet, lookupB, hk]
        · simp [visSet, lookupB, hk, hq, ih]

theorem keysOf_visSet_mem (m : VisMap) (k : String) (b : Bool)
    (h : k ∈ keysOf m) : keysOf (visSet m k b) = keysOf m := by
  induction m with
  | nil => simp [keysOf] at h
  | cons p rest ih =>
      obtain ⟨k2, v⟩ := p
      by_cases hk : k2 = k
      · subst hk; simp [visSet, keysOf]
      · have hkr : k ∈ keysOf rest := by
          have hne : ¬ k = k2 := fun hh => hk hh.symm
          simpa [keysOf, hne] using h
        have h2 := ih hkr
        simp only [visSet, if_neg hk, keysOf, List.map_cons] at h2 ⊢
        rw [h2]

theorem openCount_eq_zero_of_allFalse (m : VisMap)
    (h : ∀ p ∈ m, p.2 = false) : openCount m = 0 := by
  rw [openCount, List.length_eq_zero, List.filter_eq_nil_iff]
  intro p hp
  simp [h p hp]

theorem openCount_visSet_false_le (m : VisMap) (c : String) :
    openCount (visSet m c false) ≤ openCount m := by
  induction m with
  | nil => simp [visSet, openCount]
  | cons p rest ih =>
      obtain ⟨k, v⟩ := p
      by_cases hk : k = c
      · rw [show visSet ((k, v) :: rest) c false = (k, false) :: rest from by
          simp [visSet, hk]]
        cases v <;> simp [openCount, List.filter_cons]
      · rw [show visSet ((k, v) :: rest) c false = (k, v) :: visSet rest c false from by
          simp [visSet, hk]]
        cases v
        · simpa [openCount, List.filter_cons] using ih
        · simpa [openCount, List.filter_cons] using ih

theorem allFalse_visSet (m : VisMap) (c : String) (b : Bool)
    (h : ∀ p ∈ m, p.2 = false) : openCount (visSet m c b) ≤ 1 := by
  induction m with
  | nil => cases b <;> simp [visSet, openCount]
  | cons p rest ih =>
      obtain ⟨k, v⟩ := p
      have hv : v = false := h (k, v) (List.mem_cons_self _ _)
      subst hv
      have hrest : ∀ p ∈ rest, p.2 = false := fun p hp => h p (List.mem_cons_of_mem _ hp)
      have h0 : (rest.filter (fun p => p.2)).length = 0 :=
        openCount_eq_zero_of_allFalse rest hrest
      by_cases hk : k = c
      · rw [show visSet ((k, false) :: rest) c b = (k, b) :: rest from by
          simp [visSet, hk]]
        cases b <;> simp [openCount, List.filter_cons, h0]
      · rw [show visSet ((k, false) :: rest) c b = (k, false) :: visSet rest c b from by
          simp [visSet, hk]]
        simpa [openCount, List.filter_cons] using ih hrest

theorem getVisible_mem (m : VisMap) (v : String)
    (h : getVisibleBundleName m = some v) : (v, true) ∈ m := by
  rw [getVisibleBundleName] at h
  obtain ⟨p, hp, hv⟩ := Option.map_eq_some'.mp h
  have hmem := List.mem_of_find?_eq_some hp
  have htrue := List.find?_some hp
  obtain ⟨k, b⟩ := p
  simp at htrue hv
  subst hv
  cases htrue
  exact hmem

theorem getVisible_none_allFalse (m : VisMap)
    (h : getVisibleBundleName m = none) : ∀ p ∈ m, p.2 = false := by
  rw [getVisibleBundleName, Option.map_eq_none'] at h
  intro p hp
  have := List.find?_eq_none.mp h p hp
  simpa using this

theorem uniqueOpen_clear (m : VisMap) (v : String)
    (hnd : (keysOf m).Nodup) (hle : openCount m ≤ 1)
    (hvis : getVisibleBundleName m = some v) :
    ∀ p ∈ visSet m v false, p.2 = false := by
  induction m with
  | nil => simp [getVisibleBundleName] at hvis
  | cons p rest ih =>
      obtain ⟨k, b⟩ := p
      cases b with
      | true =>
          have hv : v = k := by
            simp [getVisibleBundleName, List.find?] at hvis
            exact hvis.symm
          subst hv
          have hle2 : ∀ a : String, (a, true) ∉ rest := by
            simpa [openCount, List.filter_cons] using hle
          have hallf : rest.filter (fun p => p.2) = [] := by
            rw [List.filter_eq_nil_iff]
            intro p hp
            obtain ⟨a, b2⟩ := p
            cases b2
            · simp
            · exact absurd hp (hle2 a)
          intro p hp
          rw [show visSet ((v, true) :: rest) v false = (v, false) :: rest from by
            simp [visSet]] at hp
          rcases List.mem_cons.mp hp with h1 | h2
          · simp [h1]
          · have := List.filter_eq_nil_iff.mp hallf p h2
            simpa using this
      | false =>
          have hvisr : getVisibleBundleName rest = some v := by
            simpa [getVisibleBundleName, List.find?] using hvis
          have hnd2 : k ∉ keysOf rest ∧ (keysOf rest).Nodup := by
            have hkeq : keysOf ((k, false) :: rest) = k :: keysOf rest := by
              simp [keysOf]
            rw [hkeq] at hnd
            exact List.nodup_cons.mp hnd
          have hkv : ¬ k = v := by
            intro hh
            apply hnd2.1
            rw [hh]
            exact List.mem_map.mpr ⟨(v, true), getVisible_mem rest v hvisr, rfl⟩
          have hler : openCount rest ≤ 1 := by
            simpa [openCount, List.filter_cons] using hle
          intro p hp
          rw [show visSet ((k, false) :: rest) v false
              = (k, false) :: visSet rest v false from by simp [visSet, hkv]] at hp
          rcases List.mem_cons.mp hp with h1 | h2
          · simp [h1]
          · exact ih hnd2.2 hler hvisr p h2

theorem clickVis_preserve (m : VisMap) (c : String)
    (hnd : (keysOf m).Nodup) (hne : ∀ x ∈ keysOf m, x ≠ "")
    (hle : openCount m ≤ 1) (hc : c ∈ keysOf m) :
    keysOf (clickVis m c) = keysOf m ∧ openCount (clickVis m c) ≤ 1 := by
  by_cases hcond :
      lookupB m c = some false ∧ jsTruthyName (getVisibleBundleName m) = true
  · obtain ⟨hlf, htruthy⟩ := hcond
    obtain ⟨v, hv⟩ : ∃ v, getVisibleBundleName m = some v := by
      cases hvis : getVisibleBundleName m with
      | none => rw [hvis] at htruthy; simp [jsTruthyName] at htruthy
      | some v => exact ⟨v, rfl⟩
    have hvkeys : v ∈ keysOf m :=
      List.mem_map.mpr ⟨(v, true), getVisible_mem m v hv, rfl⟩
    have hm1keys : keysOf (visSet m v false) = keysOf m :=
      keysOf_visSet_mem m v false hvkeys
    have hm1false : ∀ p ∈ visSet m v false, p.2 = false :=
      uniqueOpen_clear m v hnd hle hv
    have htruthy2 : jsTruthyName (some v) = true := by rw [← hv]; exact htruthy
    have hcv : clickVis m c
        = visSet (visSet m v false) c (jsToggle (lookupB (visSet m v false) c)) := by
      simp [clickVis, hv, hlf, htruthy2]
    rw [hcv]
    constructor
    · rw [keysOf_visSet_mem _ c _ (by rw [hm1keys]; exact hc)]
      exact hm1keys
    · exact allFalse_visSet _ c _ hm1false
  · have hcv : clickVis m c = visSet m c (jsToggle (lookupB m c)) := by
      simp [clickVis, hcond]
    rw [hcv]
    refine ⟨keysOf_visSet_mem m c _ hc, ?_⟩
    cases hlook : lookupB m c with
    | none =>
        exfalso
        exact (lookupB_isNone_iff m c).mp (by simp [hlook]) hc
    | some b =>
        cases b with
        | true =>
            simp only [jsToggle, Bool.not_true]
            exact le_trans (openCount_visSet_false_le m c) hle
        | false =>
            have hnt : ¬ jsTruthyName (getVisibleBundleName m) = true := by
              intro ht
              exact hcond ⟨hlook, ht⟩
            have hvisnone : getVisibleBundleName m = none := by
              cases hvis : getVisibleBundleName m with
              | none => rfl
              | some v =>
                  exfalso
                  have hvkeys : v ∈ keysOf m :=
                    List.mem_map.mpr ⟨(v, true), getVisible_mem m v hvis, rfl⟩
                  apply hnt
                  rw [hvis]
                  simp [jsTruthyName, hne v hvkeys]
            exact allFalse_visSet m c _ (getVisible_none_allFalse m hvisnone)

theorem clickFold_preserve (clicks : List String) :
    ∀ m : VisMap, (keysOf m).Nodup → (∀ x ∈ keysOf m, x ≠ "") →
      openCount m ≤ 1 → (∀ c ∈ clicks, c ∈ keysOf m) →
      keysOf (clicks.foldl clickVis m) = keysOf m ∧
        openCount (clicks.foldl clickVis m) ≤ 1 := by
  induction clicks with
  | nil => intro m _ _ h3 _; exact ⟨rfl, h3⟩
  | cons c rest ih =>
      intro m h1 h2 h3 hdom
      have hck := clickVis_preserve m c h1 h2 h3 (hdom c (List.mem_cons_self _ _))
      have ih2 := ih (clickVis m c) (by rw [hck.1]; exact h1)
        (by rw [hck.1]; exact h2) hck.2
        (fun x hx => by rw [hck.1]; exact hdom x (List.mem_cons_of_mem _ hx))
      refine ⟨?_, by simpa using ih2.2⟩
      rw [List.foldl_cons, ih2.1, hck.1]

/-- Claim C2.  Starting from an initial visibility map in which every
rendered label's flag is `false` (as `runBundlizer` initialises it at
source line 458 before any synthetic row is clickable), any sequence of
`onBundleClick` invocations on those labels leaves, after each click
completes, at most one label with its open flag set.  Label names are
non-empty (an empty label name would be falsy in the JS conditions at
source lines 180 and 349) and rendered labels are distinct. -/
theorem spec_C2 (m0 : VisMap) (clicks : List String)
    (hinit : ∀ p ∈ m0, p.2 = false)
    (hnd : (keysOf m0).Nodup)
    (hne : ∀ x ∈ keysOf m0, x ≠ "")
    (hdom : ∀ c ∈ clicks, c ∈ keysOf m0) :
    ∀ k, openCount ((clicks.take k).foldl clickVis m0) ≤ 1 := by
  intro k
  have h0 : openCount m0 ≤ 1 := by
    rw [openCount_eq_zero_of_allFalse m0 hinit]
    omega
  exact (clickFold_preserve (clicks.take k) m0 hnd hne h0
    (fun c hc => hdom c (List.mem_of_mem_take hc))).2

/-- Witness for C2 at a concrete run: labels A and B both closed, then
clicks B, A, A; after the whole sequence at most one label is open. -/
theorem wit_C2 :
    openCount (([ "B", "A", "A" ].take 3).foldl clickVis
      [( "A", false), ( "B", false)]) ≤ 1 :=
  spec_C2 [( "A", false), ( "B", false)] [ "B", "A", "A" ]
    (by decide) (by decide) (by decide) (by decide) 3

-- ### DOM operations: hide/show, bundle-row positioning (claims C3, C7)

/-- `hideEmails` (source lines 400-409) applied to the member rows of a
bundle: each listed email that is not already hidden gets the hidden
class and `display:none`.  Members are stored as ids and resolved against
the current table. -/
def hideEmailsAll (members : List Nat) (dom : Dom) : Dom :=
  dom.map (fun n =>
    match n with
    | Node.emailN e => if e.id ∈ members then Node.emailN { e with hidden := true } else Node.emailN e
    | Node.bundleN b => Node.bundleN b)

/-- `showUnbundledEmails` (source lines 391-398): every email row carrying
the hidden class but not the `_js-is-bundled` class is shown again. -/
def showUnbundledEmailsDom (dom : Dom) : Dom :=
  dom.map (fun n =>
    match n with
    | Node.emailN e =>
        if e.hidden ∧ ¬ e.isBundled then Node.emailN { e with hidden := false } else Node.emailN e
    | Node.bundleN b => Node.bundleN b)

/-- Removal of the synthetic row `document.querySelector('[data-bundlename=...]')`
(`$bundle.remove()`, source lines 324 and 339): delete the first bundle
row bound to the given label. -/
def removeFirstBundle (dom : Dom) (name : String) : Dom :=
  match dom with
  | [] => []
  | Node.bundleN b :: rest =>
      if b = name then rest else Node.bundleN b :: removeFirstBundle rest name
  | n :: rest => n :: removeFirstBundle rest name

/-- Whether a node is the email row with the given id. -/
def nodeIsEmailWithId (i : Nat) (n : Node) : Bool :=
  match n with
  | Node.emailN e => e.id = i
  | Node.bundleN _ => false

/-- Positional core of `insertBundleDom` (source lines 204-226): if a row
for the label already exists anywhere, no-op; otherwise instantiate the
template and insert it immediately before (`beforebegin`) or after
(`afterend`) the reference email.  The template instantiation itself
(colors, click listener, the `updateBundleDom` call) renders content and
is not positional, so only the inserted row is modelled. -/
def insertBundleDomAt (dom : Dom) (refId : Nat) (name : String) (isAfter : Bool) : Dom :=
  if Node.bundleN name ∈ dom then dom
  else
    let i := dom.findIdx (nodeIsEmailWithId refId)
    let pos := if isAfter then i + 1 else i
    dom.take pos ++ [Node.bundleN name] ++ dom.drop pos

/-- One iteration of the `bundleNames.reverse().forEach` loop of
`moveBundleDoms` (source lines 321-343): collect the `.zA` rows before
(exclusive) or from (inclusive) the reference email, leave the bundle row
alone if it already lies among them, otherwise remove it and reinsert it
adjacent to the reference email. -/
def moveOne (refId : Nat) (isAfter : Bool) (dom : Dom) (name : String) : Dom :=
  let i := dom.findIdx (nodeIsEmailWithId refId)
  let positioned := if isAfter then dom.drop i else dom.take i
  if Node.bundleN name ∈ positioned then dom
  else insertBundleDomAt (removeFirstBundle dom name) refId name isAfter

/-- `moveBundleDoms` (source lines 321-343): process the given labels in
reverse order. -/
def moveBundleDoms (refId : Nat) (names : List String) (isAfter : Bool) (dom : Dom) : Dom :=
  names.reverse.foldl (moveOne refId isAfter) dom

/-- `[...state.bundlesOrder].splice(indexOf(name) + 1, length)` (source
lines 173-174 and 351-352): the labels strictly after `name` in the label
ordering; if `name` is absent, JS `indexOf` yields `-1` and the splice
returns the whole list. -/
def listAfter (order : List String) (name : String) : List String :=
  if name ∈ order then order.drop (order.findIdx (fun x => x = name) + 1) else order

/-- The process-wide state the click handler and positioning code touch:
the visible table, plus `state.bundles`, `state.bundlesOrder` and
`state.bundlesVisibility` as rebuilt by the last grouping pass. -/
structure AppState where
  dom : Dom
  bundles : List (String × List Nat)
  bundlesOrder : List String
  vis : VisMap
deriving DecidableEq

/-- `resetBundleDomsPosition` (source lines 346-361).  Note the function
declares no parameter: the argument its callers build is discarded.  If a
bundle is (truthily) visible, the bundles after it in the label ordering
are moved after the open bundle's last member; otherwise every bundle is
moved to sit just above its own most recent member. -/
def resetBundleDomsPosition (st : AppState) : Dom :=
  let bundleNames := keysOf st.bundles
  let visible := getVisibleBundleName st.vis
  if jsTruthyName visible = true then
    let v := visible.getD ""
    let visibleBundle := (lookupB st.bundles v).getD []
    moveBundleDoms (visibleBundle.getLastD 0) (listAfter st.bundlesOrder v) true st.dom
  else
    bundleNames.foldl
      (fun dom name =>
        moveBundleDoms (((lookupB st.bundles name).getD []).headD 0) [name] false dom)
      st.dom

/-- `turnOffBundleVisibility` (source lines 170-176), the closing step of
`onBundleClick`: hide the named bundle's members, show unbundled emails
again, compute the list of bundles ordered after the named one, and call
`resetBundleDomsPosition` — which takes no parameters, so the computed
list (`_bundlesResetPosition` here) is dead. -/
def turnOffBundleVisibility (st : AppState) (name : String) : AppState :=
  let dom1 := hideEmailsAll ((lookupB st.bundles name).getD []) st.dom
  let dom2 := showUnbundledEmailsDom dom1
  let _bundlesResetPosition := listAfter st.bundlesOrder name
  let st2 : AppState := { st with dom := dom2 }
  { st2 with dom := resetBundleDomsPosition st2 }

/-- The close-other-bundle step of `onBundleClick` (source lines 178-183):
if the clicked bundle's flag is `=== false` and another bundle is
(truthily) visible, clear that bundle's flag and turn it off. -/
def closeOtherStep (st : AppState) (clicked : String) : AppState :=
  let visible := getVisibleBundleName st.vis
  if lookupB st.vis clicked = some false ∧ jsTruthyName visible = true then
    let v := visible.getD ""
    let st1 : AppState := { st with vis := visSet st.vis v false }
    turnOffBundleVisibility st1 v
  else st

/-- Specification-side description of the closed-position reset: every
bundle, in `Object.keys(state.bundles)` order, is moved (if out of
position) to sit just above its most recent member. -/
def repositionAllClosed (bundles : List (String × List Nat)) (dom : Dom) : Dom :=
  (keysOf bundles).foldl
    (fun d name => moveBundleDoms (((lookupB bundles name).getD []).headD 0) [name] false d)
    dom

theorem getVisible_eq_none_of_allFalse (m : VisMap)
    (h : ∀ p ∈ m, p.2 = false) : getVisibleBundleName m = none := by
  rw [getVisibleBundleName, Option.map_eq_none', List.find?_eq_none]
  intro p hp
  simp [h p hp]

/-- Index of a label's synthetic row in the table (length if absent). -/
def posOfBundle (dom : Dom) (name : String) : Nat :=
  dom.findIdx (fun n => decide (n = Node.bundleN name))

/-- A concrete state for claim C3: three emails E1/E2/E3 labelled A/B/C,
bundle order [A, B, C], bundle B open, and bundle A's synthetic row out
of position (sitting below the emails instead of just above E1). -/
def c3st : AppState :=
  ⟨[ Node.bundleN "B",
     Node.emailN ⟨1, [ "A" ], false, "a1", "d1", true, false⟩,
     Node.emailN ⟨2, [ "B" ], false, "a2", "d2", true, false⟩,
     Node.emailN ⟨3, [ "C" ], false, "a3", "d3", true, false⟩,
     Node.bundleN "A", Node.bundleN "C" ],
   [( "A", [1]), ( "B", [2]), ( "C", [3])],
   [ "A", "B", "C" ],
   [( "A", false), ( "B", true), ( "C", false)]⟩

/-- Counterexample to claim C3 as stated.  In `c3st` a click on bundle C
finds the other label B open (so the close-other step of `onBundleClick`
runs).  Bundle A is ordered strictly before L′ = B in the label ordering,
yet the close step moves A's synthetic row from index 4 to index 1: the
list of bundles ordered after L′ that the handler computes is passed to
`resetBundleDomsPosition`, which takes no parameters and instead
repositions every bundle once nothing is open.  So "bundles ordered at or
before L′ are not repositioned in this step" is false. -/
theorem cex_C3 :
    c3st.bundlesOrder = [ "A", "B", "C" ] ∧
    getVisibleBundleName c3st.vis = some "B" ∧
    lookupB c3st.vis "C" = some false ∧
    posOfBundle c3st.dom "A" = 4 ∧
    posOfBundle (closeOtherStep c3st "C").dom "A" = 1 := by
  decide

/-- Claim C3, amended.  When a bundle click finds some other label L′
(truthily) open, the handler closes L′ by hiding L′'s members and
restoring unbundled visibility; but the repositioning is done by
`resetBundleDomsPosition`, which ignores the computed list of bundles
ordered after L′ (the function takes no parameters) and — since no bundle
is open once L′'s flag is cleared — considers every bundle, moving each
out-of-position bundle to just above its own most recent member,
including bundles ordered at or before L′. -/
theorem spec_C3 (st : AppState) (clicked v : String)
    (hvis : getVisibleBundleName st.vis = some v)
    (hvne : v ≠ "")
    (hlf : lookupB st.vis clicked = some false)
    (hnd : (keysOf st.vis).Nodup)
    (hle : openCount st.vis ≤ 1) :
    closeOtherStep st clicked =
      ⟨repositionAllClosed st.bundles
          (showUnbundledEmailsDom
            (hideEmailsAll ((lookupB st.bundles v).getD []) st.dom)),
        st.bundles, st.bundlesOrder, visSet st.vis v false⟩ := by
  have htr : jsTruthyName (some v) = true := by simp [jsTruthyName, hvne]
  have hallf := uniqueOpen_clear st.vis v hnd hle hvis
  have hnone : getVisibleBundleName (visSet st.vis v false) = none :=
    getVisible_eq_none_of_allFalse _ hallf
  simp [closeOtherStep, hvis, htr, hlf, turnOffBundleVisibility,
    resetBundleDomsPosition, hnone, repositionAllClosed, jsTruthyName]
  intro h
  exact absurd h hvne

/-- Witness for the amended C3 at the concrete state `c3st`. -/
theorem wit_C3 :
    closeOtherStep c3st "C" =
      ⟨repositionAllClosed c3st.bundles
          (showUnbundledEmailsDom
            (hideEmailsAll ((lookupB c3st.bundles "B").getD []) c3st.dom)),
        c3st.bundles, c3st.bundlesOrder, visSet c3st.vis "B" false⟩ :=
  spec_C3 c3st "C" "B" (by decide) (by decide) (by decide) (by decide) (by decide)

-- ### Unlabeled rows (claim C4)

theorem emailFold_emails (es : List Email) :
    ∀ acc : BundleGroups × List Email,
      (es.foldl processEmail acc).2 =
        acc.2 ++ es.map (fun e => if e.labels = [] then e else { e with isBundled := true }) := by
  induction es with
  | nil => intro acc; simp
  | cons e rest ih =>
      intro acc
      by_cases hempty : e.labels = []
      · simp only [List.foldl_cons, processEmail, if_pos hempty]
        rw [ih]
        simp [hempty]
      · simp only [List.foldl_cons, processEmail, if_neg hempty]
        rw [ih]
        simp [hempty]

/-- Counterexample to claim C4 as stated.  Cycle 1: a row labelled A gets
the `_js-is-bundled` marker from the recompute (first conjunct: mapping
the cycle-1 output through "hide the bundle's members, then lose the
label" produces the cycle-2 input row, which carries the marker and the
hidden class).  Cycle 2: the recompute skips the now-unlabeled row, so
the marker is *still present* after the recompute — the claim says it is
absent — and `showUnbundledEmails` does not show the row either, because
its selector excludes rows with the marker, so the row stays hidden. -/
theorem cex_C4 :
    ((setBundleStateToEmails [ ⟨1, [ "A" ], false, "s", "d", false, false⟩ ]).2.map
        (fun e => { e with labels := ([] : List String), hidden := true })) =
      [ ⟨1, [], false, "s", "d", true, true⟩ ] ∧
    (setBundleStateToEmails [ ⟨1, [], false, "s", "d", true, true⟩ ]).2 =
      [ ⟨1, [], false, "s", "d", true, true⟩ ] ∧
    ((setBundleStateToEmails [ ⟨1, [], false, "s", "d", true, true⟩ ]).2.map
        (fun e => e.isBundled)) = [true] ∧
    showUnbundledEmailsDom [ Node.emailN ⟨1, [], false, "s", "d", true, true⟩ ] =
      [ Node.emailN ⟨1, [], false, "s", "d", true, true⟩ ] := by
  decide

/-- Claim C4, amended.  A row whose label set is empty at recompute time
is excluded from every bundle's member list, and the recompute itself
neither adds the bundled marker to it nor hides it (it is passed through
unchanged).  However, a marker added in an earlier cycle is not removed
by the recompute, and a row hidden while it was bundled is not shown by
`showUnbundledEmails`, whose selector skips marker-bearing rows — so such
a row can stay hidden after losing all its labels. -/
theorem spec_C4 (emails : List Email) (e : Email)
    (he : e ∈ emails) (hempty : e.labels = [])
    (hids : (emails.map (fun x => x.id)).Nodup)
    (hlab : ∀ x ∈ emails, x.labels.Nodup) :
    (∀ q, e.id ∉ membersOf (setBundleStateToEmails emails).1 q)
    ∧ (setBundleStateToEmails emails).2 =
        emails.map (fun x => if x.labels = [] then x else { x with isBundled := true })
    ∧ e ∈ (setBundleStateToEmails emails).2
    ∧ (∀ dom : Dom, Node.emailN e ∈ dom → e.hidden = true → e.isBundled = true →
        Node.emailN e ∈ showUnbundledEmailsDom dom) := by
  have hpass : (setBundleStateToEmails emails).2 =
      emails.map (fun x => if x.labels = [] then x else { x with isBundled := true }) := by
    rw [setBundleStateToEmails, emailFold_emails]
    simp
  refine ⟨?_, hpass, ?_, ?_⟩
  · intro q hin
    rw [membersOf, setBundleStateToEmails, emailFold_lookup q emails hlab] at hin
    simp only [lookupB, combineOpt] at hin
    by_cases hnil : (emails.filter (fun x => q ∈ x.labels)).map (fun x => x.id) = []
    · simp [hnil] at hin
    · simp only [if_neg hnil, Option.getD_some] at hin
      obtain ⟨e2, he2, hid⟩ := List.mem_map.mp hin
      have he2mem : e2 ∈ emails := (List.mem_filter.mp he2).1
      have he2lab : q ∈ e2.labels := by
        have := (List.mem_filter.mp he2).2
        simpa using this
      have heq : e2 = e := List.inj_on_of_nodup_map hids he2mem he hid
      rw [heq, hempty] at he2lab
      simp at he2lab
  · rw [hpass]
    exact List.mem_map.mpr ⟨e, he, by simp [hempty]⟩
  · intro dom hmem hh hb
    rw [showUnbundledEmailsDom]
    refine List.mem_map.mpr ⟨Node.emailN e, hmem, ?_⟩
    simp [hh, hb]

/-- Witness for the amended C4 at a concrete snapshot: a marker-bearing,
hidden row with no labels is in no bundle and is passed through the
recompute unchanged. -/
theorem wit_C4 :
    (∀ q, (1 : Nat) ∉ membersOf (setBundleStateToEmails
        [ ⟨1, [], false, "s", "d", true, true⟩,
          ⟨2, [ "A" ], false, "s2", "d2", false, false⟩ ]).1 q) ∧
    ⟨1, [], false, "s", "d", true, true⟩ ∈ (setBundleStateToEmails
        [ ⟨1, [], false, "s", "d", true, true⟩,
          ⟨2, [ "A" ], false, "s2", "d2", false, false⟩ ]).2 := by
  have h := spec_C4
    [ ⟨1, [], false, "s", "d", true, true⟩,
      ⟨2, [ "A" ], false, "s2", "d2", false, false⟩ ]
    ⟨1, [], false, "s", "d", true, true⟩
    (by decide) (by decide) (by decide) (by decide)
  exact ⟨h.1, h.2.2.1⟩

-- ### Orphan cleanup in runBundlizer (claim C7)

/-- The `data-bundlename` attributes of the rendered synthetic rows, in
document order: the snapshot
`Array.from(document.querySelectorAll('.' + BUNDLE_CLASS_PREFIX))` taken
at source line 440. -/
def domBundleNames (dom : Dom) : List String :=
  dom.filterMap (fun n =>
    match n with
    | Node.emailN _ => none
    | Node.bundleN b => some b)

/-- One iteration of the orphan-removal `forEach` of `runBundlizer`
(source lines 440-450): a rendered bundle row whose label is not among
the freshly computed bundle names is an orphan; if its visibility flag is
truthy, unbundled emails are shown first, then the flag is deleted and
the row removed.  Rows whose label is present are left alone. -/
def orphanStep (bundleNames : List String) (acc : Dom × VisMap) (name : String) :
    Dom × VisMap :=
  if name ∈ bundleNames then acc
  else
    let dom1 := if lookupB acc.2 name = some true then showUnbundledEmailsDom acc.1 else acc.1
    (removeFirstBundle dom1 name, visDelete acc.2 name)

/-- The whole orphan-removal pass of `runBundlizer` (source lines
440-450), folding over the snapshot of rendered bundle rows. -/
def removeOrphans (bundleNames : List String) (dom : Dom) (vis : VisMap) :
    Dom × VisMap :=
  (domBundleNames dom).foldl (orphanStep bundleNames) (dom, vis)

theorem domBundleNames_mapEmails (f : Node → Node)
    (hf : ∀ b, f (Node.bundleN b) = Node.bundleN b)
    (hf2 : ∀ e, ∃ e2, f (Node.emailN e) = Node.emailN e2) :
    ∀ dom : Dom, domBundleNames (dom.map f) = domBundleNames dom := by
  intro dom
  induction dom with
  | nil => rfl
  | cons n rest ih =>
      cases n with
      | emailN e =>
          obtain ⟨e2, he2⟩ := hf2 e
          simp only [List.map_cons, he2, domBundleNames, List.filterMap_cons] at ih ⊢
          exact ih
      | bundleN b =>
          simp only [List.map_cons, hf b, domBundleNames, List.filterMap_cons] at ih ⊢
          rw [ih]

theorem domBundleNames_showUnbundled (dom : Dom) :
    domBundleNames (showUnbundledEmailsDom dom) = domBundleNames dom := by
  apply domBundleNames_mapEmails
  · intro b; rfl
  · intro e
    by_cases h : e.hidden ∧ ¬ e.isBundled
    · exact ⟨{ e with hidden := false }, if_pos h⟩
    · exact ⟨e, if_neg h⟩

theorem domBundleNames_removeFirst (dom : Dom) (name : String) :
    domBundleNames (removeFirstBundle dom name) = (domBundleNames dom).erase name := by
  induction dom with
  | nil => rfl
  | cons n rest ih =>
      cases n with
      | emailN e =>
          simp [removeFirstBundle, domBundleNames] at ih ⊢
          exact ih
      | bundleN b =>
          by_cases h : b = name
          · subst h
            simp [removeFirstBundle, domBundleNames, List.erase_cons_head]
          · have h2 : ¬ name = b := fun hh => h hh.symm
            simp [removeFirstBundle, domBundleNames, h, List.erase_cons, h2]
            exact ih

theorem lookupB_visDelete (m : VisMap) (k q : String) :
    lookupB (visDelete m k) q = if q = k then none else lookupB m q := by
  induction m with
  | nil => by_cases h : q = k <;> simp [visDelete, lookupB, h]
  | cons p rest ih =>
      obtain ⟨k2, v⟩ := p
      by_cases hk : k2 = k
      · subst hk
        have hstep : visDelete ((k2, v) :: rest) k2 = visDelete rest k2 := by
          simp [visDelete]
        rw [hstep, ih]
        by_cases hq : q = k2
        · simp [hq]
        · have h2 : ¬ k2 = q := fun hh => hq hh.symm
          simp [hq, lookupB, h2]
      · have hstep : visDelete ((k2, v) :: rest) k = (k2, v) :: visDelete rest k := by
          simp [visDelete, hk]
        rw [hstep]
        by_cases hq : q = k2
        · subst hq
          simp [lookupB, hk]
        · have h2 : ¬ k2 = q := fun hh => hq hh.symm
          simp [lookupB, h2, ih]

theorem orphanStep_mem (bns : List String) (acc : Dom × VisMap) (h : String)
    (hmem : h ∈ bns) : orphanStep bns acc h = acc := by
  simp [orphanStep, hmem]

theorem orphanStep_notMem (bns : List String) (dom : Dom) (vis : VisMap) (h : String)
    (hmem : h ∉ bns) :
    orphanStep bns (dom, vis) h =
      (removeFirstBundle
        (if lookupB vis h = some true then showUnbundledEmailsDom dom else dom) h,
       visDelete vis h) := by
  simp [orphanStep, hmem]

theorem orphanFold_vis (bns : List String) (toProcess : List String) :
    ∀ (dom : Dom) (vis : VisMap) (q : String),
      lookupB ((toProcess.foldl (orphanStep bns) (dom, vis)).2) q =
        if q ∈ toProcess ∧ q ∉ bns then none else lookupB vis q := by
  induction toProcess with
  | nil => intro dom vis q; simp
  | cons h rest ih =>
      intro dom vis q
      by_cases hmem : h ∈ bns
      · rw [List.foldl_cons, orphanStep_mem bns (dom, vis) h hmem, ih]
        by_cases hq : q ∈ rest ∧ q ∉ bns
        · have hB : q ∈ h :: rest ∧ q ∉ bns := ⟨List.mem_cons_of_mem _ hq.1, hq.2⟩
          rw [if_pos hq, if_pos hB]
        · have hB : ¬ (q ∈ h :: rest ∧ q ∉ bns) := by
            intro hc
            rcases List.mem_cons.mp hc.1 with h1 | h2
            · exact hc.2 (h1 ▸ hmem)
            · exact hq ⟨h2, hc.2⟩
          rw [if_neg hq, if_neg hB]
      · rw [List.foldl_cons, orphanStep_notMem bns dom vis h hmem, ih,
          lookupB_visDelete]
        by_cases hqh : q = h
        · subst hqh
          have hB : q ∈ q :: rest ∧ q ∉ bns := ⟨List.mem_cons_self _ _, hmem⟩
          rw [if_pos hB]
          by_cases hq : q ∈ rest ∧ q ∉ bns
          · rw [if_pos hq]
          · rw [if_neg hq, if_pos rfl]
        · rw [if_neg hqh]
          by_cases hq : q ∈ rest ∧ q ∉ bns
          · rw [if_pos hq, if_pos ⟨List.mem_cons_of_mem _ hq.1, hq.2⟩]
          · have hB : ¬ (q ∈ h :: rest ∧ q ∉ bns) := by
              intro hc
              rcases List.mem_cons.mp hc.1 with h1 | h2
              · exact hqh h1
              · exact hq ⟨h2, hc.2⟩
            rw [if_neg hq, if_neg hB]

theorem orphanFold_names (bns : List String) (toProcess : List String) :
    ∀ (dom : Dom) (vis : VisMap),
      domBundleNames ((toProcess.foldl (orphanStep bns) (dom, vis)).1) =
        toProcess.foldl (fun ns h => if h ∈ bns then ns else ns.erase h)
          (domBundleNames dom) := by
  induction toProcess with
  | nil => intro dom vis; simp
  | cons h rest ih =>
      intro dom vis
      by_cases hmem : h ∈ bns
      · rw [List.foldl_cons, orphanStep_mem bns (dom, vis) h hmem, ih,
          List.foldl_cons, if_pos hmem]
      · rw [List.foldl_cons, orphanStep_notMem bns dom vis h hmem, ih,
          List.foldl_cons, if_neg hmem]
        by_cases hvis : lookupB vis h = some true
        · rw [if_pos hvis, domBundleNames_removeFirst, domBundleNames_showUnbundled]
        · rw [if_neg hvis, domBundleNames_removeFirst]

theorem eraseFold_filter (bns : List String) (l : List String) :
    ∀ kept : List String, (kept ++ l).Nodup → (∀ k ∈ kept, k ∈ bns) →
      l.foldl (fun ns h => if h ∈ bns then ns else ns.erase h) (kept ++ l) =
        kept ++ l.filter (fun x => x ∈ bns) := by
  induction l with
  | nil => intro kept _ _; simp
  | cons h rest ih =>
      intro kept hnd hkept
      by_cases hmem : h ∈ bns
      · rw [List.foldl_cons, if_pos hmem]
        have hres := ih (kept ++ [h])
          (by simpa using hnd)
          (by
            intro k hk
            rcases List.mem_append.mp hk with h1 | h2
            · exact hkept k h1
            · rw [List.mem_singleton.mp h2]; exact hmem)
        rw [show kept ++ h :: rest = (kept ++ [h]) ++ rest by simp, hres]
        simp [List.filter_cons, hmem]
      · rw [List.foldl_cons, if_neg hmem]
        have hhk : h ∉ kept := by
          have hd := hnd
          rw [List.nodup_append] at hd
          intro hc
          exact hd.2.2 hc (List.mem_cons_self _ _)
        have herase : (kept ++ h :: rest).erase h = kept ++ rest := by
          rw [List.erase_append_right _ hhk, List.erase_cons_head]
        rw [herase]
        have hndr : (kept ++ rest).Nodup := by
          refine List.Nodup.sublist ?_ hnd
          exact (List.sublist_cons_self h rest).append_left kept
        rw [ih kept hndr hkept]
        simp [List.filter_cons, hmem]

/-- No email row of the table is hidden while lacking the bundled marker
(the state `showUnbundledEmails` establishes). -/
def noHiddenUnbundled (dom : Dom) : Prop :=
  ∀ e : Email, Node.emailN e ∈ dom → e.hidden = true → e.isBundled = true

theorem showUnbundled_establishes (dom : Dom) :
    noHiddenUnbundled (showUnbundledEmailsDom dom) := by
  intro e hmem hh
  rw [showUnbundledEmailsDom] at hmem
  obtain ⟨n, hn, heq⟩ := List.mem_map.mp hmem
  cases n with
  | bundleN b => simp at heq
  | emailN e0 =>
      have heq2 : (if e0.hidden ∧ ¬ e0.isBundled then
          Node.emailN { e0 with hidden := false } else Node.emailN e0)
          = Node.emailN e := heq
      by_cases hc : e0.hidden ∧ ¬ e0.isBundled
      · rw [if_pos hc] at heq2
        have h2 := Node.emailN.inj heq2
        rw [← h2] at hh
        simp at hh
      · rw [if_neg hc] at heq2
        have h2 := Node.emailN.inj heq2
        rw [← h2] at hh ⊢
        by_cases hb : e0.isBundled = true
        · exact hb
        · exact absurd ⟨hh, hb⟩ hc

theorem mem_removeFirstBundle (dom : Dom) (name : String) (n : Node)
    (h : n ∈ removeFirstBundle dom name) : n ∈ dom := by
  induction dom with
  | nil => simp [removeFirstBundle] at h
  | cons m rest ih =>
      cases m with
      | emailN e =>
          simp only [removeFirstBundle] at h
          rcases List.mem_cons.mp h with h1 | h2
          · exact h1 ▸ List.mem_cons_self _ _
          · exact List.mem_cons_of_mem _ (ih h2)
      | bundleN b =>
          simp only [removeFirstBundle] at h
          by_cases hb : b = name
          · rw [if_pos hb] at h
            exact List.mem_cons_of_mem _ h
          · rw [if_neg hb] at h
            rcases List.mem_cons.mp h with h1 | h2
            · exact h1 ▸ List.mem_cons_self _ _
            · exact List.mem_cons_of_mem _ (ih h2)

theorem orphanFold_preserveP (bns : List String) (toProcess : List String) :
    ∀ (dom : Dom) (vis : VisMap), noHiddenUnbundled dom →
      noHiddenUnbundled ((toProcess.foldl (orphanStep bns) (dom, vis)).1) := by
  induction toProcess with
  | nil => intro dom vis h; exact h
  | cons h rest ih =>
      intro dom vis hp
      rw [List.foldl_cons]
      by_cases hmem : h ∈ bns
      · rw [orphanStep_mem bns (dom, vis) h hmem]
        exact ih dom vis hp
      · rw [orphanStep_notMem bns dom vis h hmem]
        apply ih
        intro e hmem2 hh
        have hmem3 := mem_removeFirstBundle _ _ _ hmem2
        by_cases hvis : lookupB vis h = some true
        · rw [if_pos hvis] at hmem3
          exact showUnbundled_establishes dom e hmem3 hh
        · rw [if_neg hvis] at hmem3
          exact hp e hmem3 hh

theorem orphanFold_trigger (bns : List String) (toProcess : List String) :
    ∀ (dom : Dom) (vis : VisMap), toProcess.Nodup →
      (∃ q ∈ toProcess, q ∉ bns ∧ lookupB vis q = some true) →
      noHiddenUnbundled ((toProcess.foldl (orphanStep bns) (dom, vis)).1) := by
  induction toProcess with
  | nil => intro dom vis _ hex; simp at hex
  | cons h rest ih =>
      intro dom vis hnd hex
      obtain ⟨q, hq, hqb, hqv⟩ := hex
      rw [List.foldl_cons]
      rcases List.mem_cons.mp hq with h1 | h2
      · subst h1
        rw [orphanStep_notMem bns dom vis q hqb, if_pos hqv]
        apply orphanFold_preserveP
        intro e hm hh
        exact showUnbundled_establishes dom e (mem_removeFirstBundle _ _ _ hm) hh
      · have hne : ¬ q = h := by
          intro hh
          exact (List.nodup_cons.mp hnd).1 (hh ▸ h2)
        by_cases hmem : h ∈ bns
        · rw [orphanStep_mem bns (dom, vis) h hmem]
          exact ih dom vis (List.nodup_cons.mp hnd).2 ⟨q, h2, hqb, hqv⟩
        · rw [orphanStep_notMem bns dom vis h hmem]
          apply ih _ _ (List.nodup_cons.mp hnd).2
          refine ⟨q, h2, hqb, ?_⟩
          rw [lookupB_visDelete, if_neg hne]
          exact hqv

/-- Claim C7.  In a cycle whose freshly computed labels are `bns`, the
orphan pass of `runBundlizer`: (1) leaves exactly the rendered synthetic
rows whose label is in `bns` (orphans removed in the same pass);
(2) deletes the open/closed flag of every rendered orphan label;
(3) leaves the flags of present labels untouched; (4) does not remove the
synthetic row of a present label; and (5) if some rendered orphan was the
open label, every email row still hidden afterwards carries the bundled
marker (unbundled visibility was restored before the removal). -/
theorem spec_C7 (bns : List String) (dom : Dom) (vis : VisMap)
    (hnd : (domBundleNames dom).Nodup) :
    domBundleNames (removeOrphans bns dom vis).1 =
        (domBundleNames dom).filter (fun n => n ∈ bns)
    ∧ (∀ n ∈ domBundleNames dom, n ∉ bns →
        lookupB (removeOrphans bns dom vis).2 n = none)
    ∧ (∀ n, n ∈ bns → lookupB (removeOrphans bns dom vis).2 n = lookupB vis n)
    ∧ (∀ n, n ∈ bns → n ∈ domBundleNames dom →
        n ∈ domBundleNames (removeOrphans bns dom vis).1)
    ∧ ((∃ q ∈ domBundleNames dom, q ∉ bns ∧ lookupB vis q = some true) →
        ∀ e : Email, Node.emailN e ∈ (removeOrphans bns dom vis).1 →
          e.hidden = true → e.isBundled = true) := by
  have hfil : domBundleNames (removeOrphans bns dom vis).1 =
      (domBundleNames dom).filter (fun n => decide (n ∈ bns)) := by
    rw [removeOrphans, orphanFold_names]
    have h := eraseFold_filter bns (domBundleNames dom) [] (by simpa using hnd)
      (by simp)
    simpa using h
  refine ⟨hfil, ?_, ?_, ?_, ?_⟩
  · intro n hn hnb
    rw [removeOrphans, orphanFold_vis, if_pos ⟨hn, hnb⟩]
  · intro n hnb
    rw [removeOrphans, orphanFold_vis, if_neg (fun hc => hc.2 hnb)]
  · intro n hnb hdom2
    rw [hfil]
    exact List.mem_filter.mpr ⟨hdom2, by simpa using hnb⟩
  · intro hex
    exact orphanFold_trigger bns (domBundleNames dom) dom vis hnd hex

/-- Witness for C7 at a concrete cycle: labels computed = [A]; rendered
rows A and Old with Old open; afterwards only A's row remains, Old's flag
is deleted, and the previously hidden unbundled email is visible. -/
theorem wit_C7 :
    domBundleNames (removeOrphans [ "A" ]
        [ Node.bundleN "A", Node.emailN ⟨1, [], false, "s", "d", false, true⟩,
          Node.bundleN "Old" ]
        [( "A", false), ( "Old", true)]).1 = [ "A" ] ∧
    lookupB (removeOrphans [ "A" ]
        [ Node.bundleN "A", Node.emailN ⟨1, [], false, "s", "d", false, true⟩,
          Node.bundleN "Old" ]
        [( "A", false), ( "Old", true)]).2 "Old" = none := by
  have h := spec_C7 [ "A" ]
    [ Node.bundleN "A", Node.emailN ⟨1, [], false, "s", "d", false, true⟩,
      Node.bundleN "Old" ]
    [( "A", false), ( "Old", true)] (by decide)
  exact ⟨by rw [h.1]; decide, h.2.1 "Old" (by decide) (by decide)⟩

-- ### Bundle renderer: updateBundleDom (claims C5, C6)

/-- Source line 61. -/
def EMAIL_SENDERS_SEPARATOR : String := "&nbsp;&nbsp;|&nbsp;&nbsp;"

/-- Source line 62. -/
def UNICODE_NBSP : String := "\u00A0"

/-- Source line 63. -/
def MAX_SENDERS_BUNDLE_DESC : Nat := 3

/-- The three text slots of a rendered synthetic bundle row:
`[data-bundle]` (name), `[data-subject]` (recent senders), `[data-date]`.
Each slot is modelled by its readable text.  For the name slot this is
the string last assigned to `innerHTML` (read back as assigned); for the
senders slot the stored value is the `innerText` view of the assigned
`innerHTML`, in which the `&nbsp;` entities of the separator read back as
U+00A0 — exactly the normalisation the comparison at source line 258
performs on its right-hand side (the sender strings themselves are
`innerText` reads from real rows, hence entity-free). -/
structure BundleDom where
  nameHTML : String
  sendersText : String
  dateText : String
deriving DecidableEq

/-- The `for` loop of `getRecentSenders` (source lines 308-316): walk
`bundle[0..]`, stopping at the index bound or at the first missing entry,
collecting each member's sender text. -/
def getRecentSendersAux : Nat → List Email → List String
  | 0, _ => []
  | _ + 1, [] => []
  | n + 1, e :: rest => e.sender :: getRecentSendersAux n rest

/-- `getRecentSenders` (source lines 305-319). -/
def getRecentSenders (bundle : List Email) : List String :=
  getRecentSendersAux MAX_SENDERS_BUNDLE_DESC bundle

/-- The write-if-different pattern shared by the three field updates of
`updateBundleDom` (source lines 253-263): the field is written only when
its current rendered text differs from the newly computed text, both
sides trimmed the same way.  Returns the stored text afterwards and
whether a write happened. -/
def applyField (cur new : String) : String × Bool :=
  if cur.trim ≠ new.trim then (new, true) else (cur, false)

/-- The rendered display name (source lines 243-246): `"{name} [{count}]"`,
wrapped in `<strong>` when unread, then in `<u>` when open. -/
def renderedBundleNameOf (bundleName : String) (bundle : List Email)
    (isOpen isUnread : Bool) : String :=
  let renderedEmailCount := "[" ++ toString bundle.length ++ "]"
  let r1 := bundleName ++ " " ++ renderedEmailCount
  let r2 := if isUnread then "<strong>" ++ r1 ++ "</strong>" else r1
  if isOpen then "<u>" ++ r2 ++ "</u>" else r2

/-- `updateBundleDom` (source lines 230-264).  Inputs: the bundle's member
rows (resolved), its open flag (`state.bundlesVisibility[name]` truthiness)
and cached unread flag (`state.bundlesUnread[name]` truthiness), and the
rendered row's slots (`none` = row not found, which warns and returns
without writing).  An empty member list makes `bundle[0]` undefined and
the `classList` access at source line 242 throw: result `none`.
Otherwise returns the slots after the three conditional writes together
with one written-flag per field (name, senders, date). -/
def updateBundleDom (bundleName : String) (bundle : List Email)
    (isOpen bundleUnreadFlag : Bool) (bdom : Option BundleDom) :
    Option (Option BundleDom × Bool × Bool × Bool) :=
  match bdom with
  | none => some (none, false, false, false)
  | some d =>
    match bundle with
    | [] => none
    | latest :: _ =>
        let isUnread := latest.unread || bundleUnreadFlag
        let renderedBundleName := renderedBundleNameOf bundleName bundle isOpen isUnread
        let recentSenders := getRecentSenders bundle
        let emailDate := latest.date
        let sepText := EMAIL_SENDERS_SEPARATOR.replace "&nbsp;" UNICODE_NBSP
        let f1 := applyField d.nameHTML renderedBundleName
        let f2 := applyField d.sendersText (String.intercalate sepText recentSenders)
        let f3 := applyField d.dateText emailDate
        some (some ⟨f1.1, f2.1, f3.1⟩, f1.2, f2.2, f3.2)

theorem applyField_stable (cur new : String) :
    applyField (applyField cur new).1 new = ((applyField cur new).1, false) := by
  by_cases h : cur.trim ≠ new.trim
  · simp [applyField, h]
  · simp [applyField, h]

theorem applyField_trim (cur new : String) :
    ((applyField cur new).1).trim = new.trim := by
  by_cases h : cur.trim ≠ new.trim
  · simp [applyField, h]
  · push_neg at h
    simp [applyField, h]

theorem getRecentSendersAux_eq (n : Nat) : ∀ l : List Email,
    getRecentSendersAux n l = (l.take n).map (fun e => e.sender) := by
  induction n with
  | zero => intro l; simp [getRecentSendersAux]
  | succ n ih =>
      intro l
      cases l with
      | nil => simp [getRecentSendersAux]
      | cons e rest => simp [getRecentSendersAux, ih]

theorem renderedBundleNameOf_eq (bn : String) (bundle : List Email) (o u : Bool) :
    renderedBundleNameOf bn bundle o u =
      (if o then fun s => "<u>" ++ s ++ "</u>" else id)
        ((if u then fun s => "<strong>" ++ s ++ "</strong>" else id)
          (bn ++ " " ++ ("[" ++ toString bundle.length ++ "]"))) := by
  cases o <;> cases u <;> simp [renderedBundleNameOf]

/-- Claim C5.  Calling `updateBundleDom` a second time immediately after a
first call, with the same bundle state and rendered row, performs zero
writes: each of the three fields is written only when its current
rendered text differs from the newly computed text (both sides trimmed
identically, and with the non-breaking spaces of the separator normalised
identically on both sides of the senders comparison). -/
theorem spec_C5 (bundleName : String) (latest : Email) (rest : List Email)
    (isOpen bundleUnreadFlag : Bool) (d0 : BundleDom) :
    ∃ d1 w1 w2 w3,
      updateBundleDom bundleName (latest :: rest) isOpen bundleUnreadFlag (some d0) =
        some (some d1, w1, w2, w3) ∧
      updateBundleDom bundleName (latest :: rest) isOpen bundleUnreadFlag (some d1) =
        some (some d1, false, false, false) := by
  refine ⟨_, _, _, _, rfl, ?_⟩
  simp only [updateBundleDom, applyField_stable]

/-- Claim C6.  For a bundle with a rendered row, `updateBundleDom` renders
(up to the write-avoiding trim) the display name `"{label} [{count}]"`,
bold-wrapped exactly when the latest member is unread or the bundle's
cached unread flag is set, underline-wrapped exactly when the bundle is
open; the senders text as the separator-join of the senders of the up to
3 most recent members in recency order; and the date text as the most
recent member's sent-date text. -/
theorem spec_C6 (bundleName : String) (latest : Email) (rest : List Email)
    (isOpen bundleUnreadFlag : Bool) (d0 : BundleDom) :
    ∃ d1 w1 w2 w3,
      updateBundleDom bundleName (latest :: rest) isOpen bundleUnreadFlag (some d0) =
        some (some d1, w1, w2, w3) ∧
      d1.nameHTML.trim = ((if isOpen then fun s => "<u>" ++ s ++ "</u>" else id)
          ((if latest.unread || bundleUnreadFlag then
              fun s => "<strong>" ++ s ++ "</strong>" else id)
            (bundleName ++ " " ++ ("[" ++ toString (latest :: rest).length ++ "]")))).trim
      ∧ d1.sendersText.trim =
          (String.intercalate (EMAIL_SENDERS_SEPARATOR.replace "&nbsp;" UNICODE_NBSP)
            (((latest :: rest).take 3).map (fun e => e.sender))).trim
      ∧ d1.dateText.trim = latest.date.trim := by
  refine ⟨_, _, _, _, rfl, ?_, ?_, ?_⟩
  · show (applyField d0.nameHTML _).1.trim = _
    rw [applyField_trim, renderedBundleNameOf_eq]
  · show (applyField d0.sendersText _).1.trim = _
    rw [applyField_trim, getRecentSenders, getRecentSendersAux_eq]
    rfl
  · show (applyField d0.dateText _).1.trim = _
    rw [applyField_trim]

-- ### Template synthesizer and cycle entry (claims C8, C10)

/-- The result of the clone/strip/slot-marking body of
`initBundleTemplateHTML` (source lines 120-160) on the cloned last row.
The body only reads the host tree (it mutates a detached clone), and its
exact markup is host-DOM-dependent; the verification uses that it yields
a non-empty markup string starting with the literal
`<div data-bundlename=` prefix installed by the first `.replace` at
source line 154, so only that shape is modelled. -/
def buildBundleTemplate (row : Email) : String :=
  "<div data-bundlename=" ++ row.sender ++ "</div>"

/-- `initBundleTemplateHTML` (source lines 114-161): if the cached
template string is truthy (non-empty), return at once; otherwise take the
last row of the visible list (`$emails[$emails.length - 1]`) and derive
the template from its clone.  With zero rows that indexing yields
`undefined` and `.cloneNode` throws: modelled as `none`.  The returned
flag records whether the derivation work ran. -/
def initBundleTemplateHTML (template : String) (rows : List Email) :
    Option (String × Bool) :=
  if template ≠ "" then some (template, false)
  else
    match rows.getLast? with
    | none => none
    | some row => some (buildBundleTemplate row, true)

/-- Outcome of the entry of a `runBundlizer` cycle. -/
inductive CycleOutcome where
  | crashed
  | returnedNoTable (template : String)
  | proceeded (template : String)
deriving DecidableEq

/-- The entry of `runBundlizer` (source lines 426-432): it calls
`initBundleTemplateHTML()` first and only afterwards checks
`document.querySelector(VISIBLE_EMAIL_TABLE_CLASS)`, returning early when
no visible email table exists.  On a non-list page the table is absent,
so the template row selector matches zero rows; an exception escaping the
template derivation aborts the whole cycle (`crashed`). -/
def runBundlizerEntry (template : String) (visibleTable : Option (List Email)) :
    CycleOutcome :=
  let rows := match visibleTable with | none => [] | some es => es
  match initBundleTemplateHTML template rows with
  | none => CycleOutcome.crashed
  | some (t, _) =>
      match visibleTable with
      | none => CycleOutcome.returnedNoTable t
      | some _ => CycleOutcome.proceeded t

theorem buildBundleTemplate_ne_empty (row : Email) : buildBundleTemplate row ≠ "" := by
  intro h
  have h2 : (buildBundleTemplate row).length = 0 := by rw [h]; rfl
  rw [buildBundleTemplate] at h2
  simp [String.length_append] at h2
  exact absurd h2.2 (by decide)

/-- Claim C8.  While the cached template is non-empty, every call to
`initBundleTemplateHTML` is a no-op that returns the cache unchanged and
performs no derivation work (the body never mutates the live tree — it
clones).  Calling twice from an empty cache with at least one row does
the derivation work only on the first call: that call caches a non-empty
template, so the second call is a no-op. -/
theorem spec_C8 (template : String) (rows rows2 : List Email)
    (h : template ≠ "") :
    initBundleTemplateHTML template rows = some (template, false) ∧
    (∀ row, rows2.getLast? = some row →
      ∃ t1, initBundleTemplateHTML "" rows2 = some (t1, true) ∧ t1 ≠ "" ∧
        initBundleTemplateHTML t1 rows = some (t1, false)) := by
  constructor
  · simp [initBundleTemplateHTML, h]
  · intro row hrow
    refine ⟨buildBundleTemplate row, ?_, buildBundleTemplate_ne_empty row, ?_⟩
    · simp [initBundleTemplateHTML, hrow]
    · simp [initBundleTemplateHTML, buildBundleTemplate_ne_empty row]

/-- Witness for C8: a cached template makes the call a no-op, and a
two-call run from an empty cache derives only once. -/
theorem wit_C8 :
    initBundleTemplateHTML "t" [] = some ("t", false) ∧
    (∃ t1, initBundleTemplateHTML ""
        [ ⟨1, [], false, "s", "d", false, false⟩ ] = some (t1, true) ∧ t1 ≠ "" ∧
      initBundleTemplateHTML t1 [] = some (t1, false)) := by
  have h := spec_C8 "t" [] [ ⟨1, [], false, "s", "d", false, false⟩ ] (by decide)
  exact ⟨h.1, h.2 _ rfl⟩

/-- Claim C10.  `runBundlizer` calls `initBundleTemplateHTML` before its
visible-table guard, and the derivation presumes at least one visible
row: with an empty cache and zero rows (e.g. a non-list page, where the
guard right after would have returned cleanly — as it does once the cache
is populated) the last-row lookup yields nothing, the clone dereference
throws, and the cycle aborts.  A present but row-less table crashes the
same way. -/
theorem spec_C10 :
    runBundlizerEntry "" none = CycleOutcome.crashed ∧
    runBundlizerEntry "" (some []) = CycleOutcome.crashed ∧
    (∀ t, t ≠ "" → runBundlizerEntry t none = CycleOutcome.returnedNoTable t) := by
  refine ⟨rfl, rfl, ?_⟩
  intro t ht
  simp [runBundlizerEntry, initBundleTemplateHTML, ht]

/-- Witness for C10: the crash on an empty cache and no table, against
the clean early return once a template is cached. -/
theorem wit_C10 :
    runBundlizerEntry "" none = CycleOutcome.crashed ∧
    runBundlizerEntry "cached" none = CycleOutcome.returnedNoTable "cached" :=
  ⟨spec_C10.1, spec_C10.2.2 "cached" (by decide)⟩

-- ### Change detector: debounce (claim C9)

/-- Source line 64. -/
def BUNDLE_UPDATE_DELAY : Nat := 100

/-- `debounce` (source lines 75-92) as a timed transition system over
millisecond instants.  The wrapper's only state is its pending timer
(`timeout`): the deadline of the scheduled `setTimeout`, or `none` before
the first call and after a timer fires (`later` nulls it).  Processing an
ascending list of call instants from a pending state yields the instants
at which the wrapped function runs:
* a pending timer whose deadline has been reached by the next call fires
  first, running the function iff not `immediate`, and nulls `timeout`;
* each call does `clearTimeout` (cancelling an unexpired timer) and
  schedules a new deadline `t + wait`; it runs the function at the call
  instant only when `immediate` and no timer was pending (`callNow`);
* after the last call, a surviving timer fires at its deadline, running
  the function iff not `immediate`.
`init` installs `debounce(runBundlizer, BUNDLE_UPDATE_DELAY)` (source
line 496) with no third argument, so `immediate` is falsy there. -/
def debounceSim (wait : Nat) (immediate : Bool) :
    List Nat → Option Nat → List Nat
  | [], none => []
  | [], some d => if immediate then [] else [d]
  | t :: rest, none =>
      (if immediate then [t] else []) ++ debounceSim wait immediate rest (some (t + wait))
  | t :: rest, some d =>
      if d ≤ t then
        (if immediate then [] else [d]) ++ (if immediate then [t] else []) ++
          debounceSim wait immediate rest (some (t + wait))
      else
        debounceSim wait immediate rest (some (t + wait))

theorem debounceSim_pending (wait : Nat) :
    ∀ (rest : List Nat) (t : Nat),
      List.Chain' (fun a b => a ≤ b ∧ b < a + wait) (t :: rest) →
      debounceSim wait false rest (some (t + wait)) =
        [(t :: rest).getLast (by simp) + wait] := by
  intro rest
  induction rest with
  | nil => intro t _; simp [debounceSim]
  | cons t2 rest2 ih =>
      intro t hchain
      have h12 := (List.chain'_cons.mp hchain).1
      have hch2 := (List.chain'_cons.mp hchain).2
      have hnle : ¬ t + wait ≤ t2 := by omega
      rw [show debounceSim wait false (t2 :: rest2) (some (t + wait))
          = debounceSim wait false rest2 (some (t2 + wait)) from by
        simp [debounceSim, hnle]]
      rw [ih t2 hch2]
      congr 1

theorem chain_mem_le_last (wait : Nat) :
    ∀ (rest : List Nat) (t : Nat),
      List.Chain' (fun a b => a ≤ b ∧ b < a + wait) (t :: rest) →
      ∀ s ∈ t :: rest, s ≤ (t :: rest).getLast (by simp) := by
  intro rest
  induction rest with
  | nil =>
      intro t _ s hs
      simp at hs
      simp [hs]
  | cons t2 rest2 ih =>
      intro t hchain s hs
      have h12 := (List.chain'_cons.mp hchain).1
      have hch2 := (List.chain'_cons.mp hchain).2
      rw [List.getLast_cons (by simp)]
      rcases List.mem_cons.mp hs with h1 | h2
      · subst h1
        exact le_trans h12.1 (ih t2 hch2 t2 (List.mem_cons_self _ _))
      · exact ih t2 hch2 s h2

/-- Claim C9.  The debounced cycle trigger is trailing-edge only: for a
finite burst of call instants in which each consecutive pair is separated
by less than the debounce window, the wrapped function (with `immediate`
falsy, as `init` installs it) runs exactly once, at `wait` after the last
instant of the burst — every earlier pending deadline is reset by the
next call — and never at any call instant (leading edge), since every
instant of the burst lies strictly before the single run time. -/
theorem spec_C9 (wait : Nat) (hw : 0 < wait) (t : Nat) (rest : List Nat)
    (hchain : List.Chain' (fun a b => a ≤ b ∧ b < a + wait) (t :: rest)) :
    debounceSim wait false (t :: rest) none =
        [(t :: rest).getLast (by simp) + wait] ∧
    ∀ s ∈ t :: rest, s < (t :: rest).getLast (by simp) + wait := by
  constructor
  · rw [show debounceSim wait false (t :: rest) none
        = debounceSim wait false rest (some (t + wait)) from by simp [debounceSim]]
    exact debounceSim_pending wait rest t hchain
  · intro s hs
    have h := chain_mem_le_last wait rest t hchain s hs
    omega

/-- Witness for C9 at a concrete burst: calls at 0, 50 and 120 ms with a
100 ms window coalesce into a single run at 220 ms. -/
theorem wit_C9 : debounceSim 100 false [ 0, 50, 120 ] none = [220] := by
  have h := (spec_C9 100 (by decide) 0 [ 50, 120 ]
    (by norm_num [List.chain'_cons])).1
  rw [h]
  rfl
